import Mathlib

/-!
Verification of the newplos billing, membership, admin-registration and
fixture-generation logic against its natural-language description.

The Python source is shallowly embedded: Django model rows become Lean
structures holding exactly the fields the verified functions touch, calendar
dates become integers (a `DateField` value is its ordinal day number, so date
comparison is integer comparison), nullable columns and absent JSON keys
become `Option`, and the Python functions become Lean functions over those
structures.  Machine arithmetic note: `int(a * p / 100)` in
`process_payout_report` performs exact integer multiplication, float division
and truncation toward zero; for products below 2 to the 53rd power the float
division is exact enough that the result equals the truncated rational, which
is `Int.tdiv (a * p) 100`, the embedding used here.
-/

namespace Newplos

/-! ## billing/models.py — rows used by stripe_utils.py -/

/-- Entry of the `RevenueSplit.splits` JSON list.  The source documents each
entry as a record with keys entity_type, entity_id and percentage; any key may
be absent, hence the `Option` fields (`split.get(k, default)` reads them). -/
structure SplitEntry where
  entity_type : Option String
  entity_id : Option Int
  percentage : Option Int
  deriving DecidableEq, Repr

/-- Row of `RevenueSplit` (billing/models.py): only the `splits` JSON list is
read by `process_payout_report`. -/
structure RevenueSplit where
  splits : List SplitEntry
  deriving DecidableEq, Repr

/-- Row of `Order` (billing/models.py), restricted to the fields read by
`stripe_utils.py` and `bill_tabs.py`: `user` (its primary key), `description`,
`amount` (IntegerField, cents, may be negative), `revenue_split` (nullable
FK), `status` (one of on_tab, billed, paid, failed), the calendar date of
`issued_at`, and the nullable `billed_at` timestamp. -/
structure Order where
  user : Nat
  description : String
  amount : Int
  revenue_split : Option RevenueSplit
  status : String
  issued_date : Int
  billed_at : Option Int
  deriving DecidableEq, Repr

/-- Row of `Payout` (billing/models.py), restricted to the fields that
`process_payout_report` writes. -/
structure Payout where
  payee_type : String
  payee_id : Int
  amount : Int
  status : String
  period_start : Int
  period_end : Int
  deriving DecidableEq, Repr

/-! ## billing/stripe_utils.py — process_payout_report -/

/-- Key of the payouts dictionary: the `(entity_type, entity_id)` pair. -/
abbrev EntityKey := String × Int

/-- Lines 119-120 and 123 of stripe_utils.py:
`entity_type = split.get("entity_type", "org")`,
`entity_id = split.get("entity_id", 0)`, `key = (entity_type, entity_id)`. -/
def splitKey (s : SplitEntry) : EntityKey :=
  (s.entity_type.getD "org", s.entity_id.getD 0)

/-- Lines 121-122 of stripe_utils.py:
`percentage = split.get("percentage", 0)` and
`amount = int(order.amount * percentage / 100)`.  Python `int()` on the float
quotient truncates toward zero, which on exact values is `Int.tdiv`. -/
def splitShare (orderAmount : Int) (s : SplitEntry) : Int :=
  Int.tdiv (orderAmount * s.percentage.getD 0) 100

/-- The queryset filter of lines 106-111 of stripe_utils.py:
status paid, `issued_at__date` within the period (endpoints included),
`revenue_split__isnull=False`. -/
def order_in_period (ps pe : Int) (o : Order) : Bool :=
  o.status == "paid" && decide (ps ≤ o.issued_date) && decide (o.issued_date ≤ pe)
    && o.revenue_split.isSome

/-- Line 124 of stripe_utils.py, `payouts[key] = payouts.get(key, 0) + amount`,
on the insertion-ordered dictionary represented as an association list:
an existing key keeps its position and accumulates, a new key is appended. -/
def bump : List (EntityKey × Int) → EntityKey → Int → List (EntityKey × Int)
  | [], k, a => [(k, a)]
  | (k', v) :: rest, k, a =>
    if k' = k then (k', v + a) :: rest else (k', v) :: bump rest k a

/-- Lines 104-138 of stripe_utils.py, `process_payout_report`: filter the
orders, accumulate each split share into the dictionary keyed by
`(entity_type, entity_id)`, then create one pending Payout per dictionary
entry carrying the period bounds.  The inner `if not order.revenue_split:
continue` guard of line 116 is the `none` branch of the match (the queryset
filter already excludes it). -/
def process_payout_report (ps pe : Int) (orders : List Order) : List Payout :=
  let filtered := orders.filter (order_in_period ps pe)
  let table := filtered.foldl
    (fun m o =>
      match o.revenue_split with
      | none => m
      | some rs => rs.splits.foldl (fun m' s => bump m' (splitKey s) (splitShare o.amount s)) m)
    []
  table.map (fun kv =>
    { payee_type := kv.1.1, payee_id := kv.1.2, amount := kv.2,
      status := "pending", period_start := ps, period_end := pe })

/-! ## membership/models.py — lease activity -/

/-- Row of `Lease` (membership/models.py) restricted to the two date fields
that lease activity reads.  `start_date` is declared non-null at the schema
level but in-memory instances may carry `None` (the repository tests build
`Lease(start_date=None)`), hence both fields are `Option`. -/
structure Lease where
  start_date : Option Int
  end_date : Option Int
  deriving DecidableEq, Repr

/-- Lines 314-321 of membership/models.py, the `Lease.is_active` property with
the implicit `timezone.now().date()` made an explicit `today` argument:
return False when start_date is None or after today, False when end_date is
set and before today, True otherwise. -/
def lease_is_active (l : Lease) (today : Int) : Bool :=
  match l.start_date with
  | none => false
  | some s =>
    if s > today then false
    else
      match l.end_date with
      | some e => if e < today then false else true
      | none => true

/-- Lines 15-27 of membership/models.py, `_active_lease_q` as the row
predicate its Q object denotes:
`Q(start_date__lte=today) & (Q(end_date__isnull=True) | Q(end_date__gte=today))`.
A SQL comparison against NULL is not satisfied, so a null start_date fails the
first conjunct. -/
def active_lease_q (today : Int) (l : Lease) : Bool :=
  (match l.start_date with
   | some s => decide (s ≤ today)
   | none => false)
  && (match l.end_date with
      | none => true
      | some e => decide (e ≥ today))

/-- Claim C4: for every lease and reference date, the per-instance
`Lease.is_active` property and the queryset predicate built by
`_active_lease_q` agree: both hold exactly when start_date is non-null and at
most today, and end_date is null or at least today. -/
theorem lease_is_active_eq_active_lease_q (l : Lease) (today : Int) :
    lease_is_active l today = active_lease_q today l := by
  rcases l with ⟨sd, ed⟩
  cases sd with
  | none => cases ed <;> rfl
  | some s =>
    cases ed with
    | none =>
      simp only [lease_is_active, active_lease_q, Bool.and_true]
      by_cases h : s > today
      · rw [if_pos h]
        simp [show ¬ s ≤ today by omega]
      · rw [if_neg h]
        simp [show s ≤ today by omega]
    | some e =>
      simp only [lease_is_active, active_lease_q]
      by_cases h : s > today
      · rw [if_pos h]
        simp [show ¬ s ≤ today by omega]
      · rw [if_neg h]
        by_cases h2 : e < today
        · rw [if_pos h2]
          simp [show ¬ e ≥ today by omega]
        · rw [if_neg h2]
          simp [show s ≤ today by omega, show e ≥ today by omega]

/-- Witness for C4 at a concrete lease: active lease on its last day. -/
theorem lease_is_active_eq_active_lease_q_check :
    lease_is_active { start_date := some 3, end_date := some 7 } 7 =
      active_lease_q 7 { start_date := some 3, end_date := some 7 } :=
  lease_is_active_eq_active_lease_q { start_date := some 3, end_date := some 7 } 7

/-! ## Association-list lemmas for the payouts dictionary -/

/-- Lookup in the association list representing the payouts dictionary. -/
def alGet (k : EntityKey) : List (EntityKey × Int) → Option Int
  | [] => none
  | (k', v) :: rest => if k' = k then some v else alGet k rest

/-- Keys of an association list (or of an entry list), in order. -/
def keysOf (m : List (EntityKey × Int)) : List EntityKey :=
  m.map Prod.fst

theorem alGet_bump_self (m : List (EntityKey × Int)) (k : EntityKey) (a : Int) :
    alGet k (bump m k a) = some ((alGet k m).getD 0 + a) := by
  induction m with
  | nil => simp [bump, alGet]
  | cons e rest ih =>
    rcases e with ⟨k', v⟩
    by_cases h : k' = k
    · subst h
      simp [bump, alGet]
    · simp [bump, alGet, h, ih]

theorem alGet_bump_ne (m : List (EntityKey × Int)) (k j : EntityKey) (a : Int)
    (h : j ≠ k) : alGet j (bump m k a) = alGet j m := by
  induction m with
  | nil => simp [bump, alGet, if_neg (Ne.symm h)]
  | cons e rest ih =>
    rcases e with ⟨k', v⟩
    by_cases hk : k' = k
    · subst hk
      simp [bump, alGet, if_neg (Ne.symm h)]
    · simp [bump, alGet, hk, ih]

theorem mem_keysOf_bump (m : List (EntityKey × Int)) (k j : EntityKey) (a : Int) :
    j ∈ keysOf (bump m k a) ↔ j ∈ keysOf m ∨ j = k := by
  induction m with
  | nil => simp [bump, keysOf]
  | cons e rest ih =>
    rcases e with ⟨k', v⟩
    by_cases h : k' = k
    · subst h
      simp [bump, keysOf]
      tauto
    · simp [bump, keysOf, h] at ih ⊢
      tauto

theorem nodup_keysOf_bump (m : List (EntityKey × Int)) (k : EntityKey) (a : Int)
    (hm : (keysOf m).Nodup) : (keysOf (bump m k a)).Nodup := by
  induction m with
  | nil => simp [bump, keysOf]
  | cons e rest ih =>
    rcases e with ⟨k', v⟩
    simp only [keysOf, List.map_cons, List.nodup_cons] at hm
    by_cases h : k' = k
    · subst h
      have hb : bump ((k', v) :: rest) k' a = (k', v + a) :: rest := by
        simp [bump]
      rw [hb]
      simpa [keysOf, List.nodup_cons] using hm
    · simp only [bump, if_neg h, keysOf, List.map_cons, List.nodup_cons]
      refine ⟨?_, ih hm.2⟩
      intro hmem
      rcases (mem_keysOf_bump rest k k' a).mp hmem with h1 | h1
      · exact hm.1 h1
      · exact h h1

theorem alGet_eq_none_iff (m : List (EntityKey × Int)) (k : EntityKey) :
    alGet k m = none ↔ k ∉ keysOf m := by
  induction m with
  | nil => simp [alGet, keysOf]
  | cons e rest ih =>
    rcases e with ⟨k', v⟩
    by_cases h : k' = k
    · subst h
      simp [alGet, keysOf]
    · simp [alGet, keysOf, h, ih]
      tauto

theorem alGet_eq_some_of_mem (m : List (EntityKey × Int)) (e : EntityKey × Int)
    (hm : (keysOf m).Nodup) (he : e ∈ m) : alGet e.1 m = some e.2 := by
  induction m with
  | nil => simp at he
  | cons e0 rest ih =>
    rcases e0 with ⟨k', v⟩
    simp only [keysOf, List.map_cons, List.nodup_cons] at hm
    rcases List.mem_cons.mp he with h | h
    · subst h
      simp [alGet]
    · have hne : k' ≠ e.1 := by
        intro hk
        exact hm.1 (hk ▸ (List.mem_map.mpr ⟨e, h, rfl⟩))
      simp [alGet, hne]
      exact ih hm.2 h

theorem filter_key_length_of_nodup (m : List (EntityKey × Int)) (k : EntityKey)
    (hm : (keysOf m).Nodup) :
    (m.filter (fun e => e.1 = k)).length = if k ∈ keysOf m then 1 else 0 := by
  induction m with
  | nil => simp [keysOf]
  | cons e0 rest ih =>
    rcases e0 with ⟨k', v⟩
    simp only [keysOf, List.map_cons, List.nodup_cons] at hm
    by_cases h : k' = k
    · subst h
      have hnot : ∀ e ∈ rest, ¬ (e.1 = k') := by
        intro e hmem hk
        exact hm.1 (hk ▸ (List.mem_map.mpr ⟨e, hmem, rfl⟩))
      have : rest.filter (fun e => e.1 = k') = [] := by
        apply List.filter_eq_nil_iff.mpr
        intro e hmem
        simpa using hnot e hmem
      simp [keysOf, List.filter_cons, this]
    · have hmem : (k ∈ k' :: List.map Prod.fst rest) ↔ k ∈ List.map Prod.fst rest := by
        simp [List.mem_cons, Ne.symm h]
      simp only [keysOf, List.filter_cons, h, ih hm.2, decide_eq_true_eq, if_false,
        decide_False, Bool.false_eq_true]
      exact (if_congr hmem rfl rfl).symm

/-! ## Accumulation of the payouts dictionary -/

/-- Folding `bump` over a list of (key, amount) entries. -/
def bumpFold (m : List (EntityKey × Int)) (es : List (EntityKey × Int)) :
    List (EntityKey × Int) :=
  es.foldl (fun acc e => bump acc e.1 e.2) m

/-- Total amount contributed to key `k` by an entry list. -/
def esum (k : EntityKey) (es : List (EntityKey × Int)) : Int :=
  ((es.filter (fun e => e.1 = k)).map Prod.snd).sum

/-- The (key, share) contributions of one order, in split order: empty when
the order has no revenue split. -/
def order_split_entries (o : Order) : List (EntityKey × Int) :=
  match o.revenue_split with
  | none => []
  | some rs => rs.splits.map (fun s => (splitKey s, splitShare o.amount s))

/-- All contributions of the orders passing the period filter, in iteration
order. -/
def period_entries (ps pe : Int) (orders : List Order) : List (EntityKey × Int) :=
  (orders.filter (order_in_period ps pe)).flatMap order_split_entries

theorem esum_nil (k : EntityKey) : esum k [] = 0 := rfl

theorem esum_cons (k : EntityKey) (e : EntityKey × Int) (es : List (EntityKey × Int)) :
    esum k (e :: es) = (if e.1 = k then e.2 else 0) + esum k es := by
  by_cases h : e.1 = k <;> simp [esum, List.filter_cons, h]

theorem esum_append (k : EntityKey) (xs ys : List (EntityKey × Int)) :
    esum k (xs ++ ys) = esum k xs + esum k ys := by
  simp [esum, List.filter_append]

theorem alGet_bumpFold (es : List (EntityKey × Int)) :
    ∀ (m : List (EntityKey × Int)) (k : EntityKey),
      alGet k (bumpFold m es) =
        match alGet k m with
        | some v => some (v + esum k es)
        | none => if k ∈ keysOf es then some (esum k es) else none := by
  induction es with
  | nil =>
    intro m k
    cases h : alGet k m <;> simp [bumpFold, esum, keysOf, h]
  | cons e rest ih =>
    intro m k
    have hstep : bumpFold m (e :: rest) = bumpFold (bump m e.1 e.2) rest := rfl
    rw [hstep, ih (bump m e.1 e.2) k]
    by_cases he : e.1 = k
    · subst he
      rw [alGet_bump_self m e.1 e.2]
      cases h : alGet e.1 m with
      | some v =>
        simp [h, esum_cons, Int.add_assoc]
      | none =>
        simp [h, esum_cons, keysOf]
    · rw [alGet_bump_ne m e.1 k e.2 (Ne.symm he)]
      have hke : k ≠ e.1 := fun hh => he hh.symm
      have hmem : (k ∈ keysOf (e :: rest)) ↔ k ∈ keysOf rest := by
        simp [keysOf, List.mem_cons, hke]
      cases h : alGet k m with
      | some v => simp [h, esum_cons, he]
      | none =>
        simp only [h, esum_cons, he, if_false]
        rw [if_congr hmem rfl rfl]
        simp

theorem nodup_keysOf_bumpFold (es : List (EntityKey × Int)) :
    ∀ m : List (EntityKey × Int), (keysOf m).Nodup → (keysOf (bumpFold m es)).Nodup := by
  induction es with
  | nil => intro m hm; exact hm
  | cons e rest ih =>
    intro m hm
    exact ih (bump m e.1 e.2) (nodup_keysOf_bump m e.1 e.2 hm)

theorem mem_keysOf_bumpFold (es : List (EntityKey × Int)) (k : EntityKey) :
    k ∈ keysOf (bumpFold [] es) ↔ k ∈ keysOf es := by
  have h := alGet_bumpFold es [] k
  have hnil : alGet k ([] : List (EntityKey × Int)) = none := rfl
  rw [hnil] at h
  constructor
  · intro hmem
    by_contra hk
    rw [if_neg hk] at h
    exact ((alGet_eq_none_iff (bumpFold [] es) k).mp h) hmem
  · intro hmem
    rw [if_pos hmem] at h
    have : alGet k (bumpFold [] es) ≠ none := by
      rw [h]; simp
    by_contra hk
    exact this ((alGet_eq_none_iff _ k).mpr hk)

/-! ## Relating process_payout_report to the entry list -/

/-- The splits list an order carries (empty when revenue_split is null). -/
def order_splits (o : Order) : List SplitEntry :=
  match o.revenue_split with
  | none => []
  | some rs => rs.splits

/-- The `(entity_type, entity_id)` pair a Payout row is keyed by. -/
def payout_key (p : Payout) : EntityKey :=
  (p.payee_type, p.payee_id)

/-- All `(entity_type, entity_id)` pairs extracted (with defaults) from the
splits lists of the orders passing the period filter. -/
def period_split_pairs (ps pe : Int) (orders : List Order) : List EntityKey :=
  (orders.filter (order_in_period ps pe)).flatMap (fun o => (order_splits o).map splitKey)

/-- The per-entity total the spec describes, with the share truncated toward
zero: over every order passing the period filter, sum the shares of the
splits whose key is `k`. -/
def claim_share_sum (ps pe : Int) (orders : List Order) (k : EntityKey) : Int :=
  ((orders.filter (order_in_period ps pe)).map
    (fun o => (((order_splits o).filter (fun s => splitKey s = k)).map
      (fun s => splitShare o.amount s)).sum)).sum

theorem bumpFold_append (m : List (EntityKey × Int)) (xs ys : List (EntityKey × Int)) :
    bumpFold m (xs ++ ys) = bumpFold (bumpFold m xs) ys :=
  List.foldl_append ..

theorem inner_fold_eq (o : Order) (m : List (EntityKey × Int)) :
    (match o.revenue_split with
     | none => m
     | some rs => rs.splits.foldl (fun m' s => bump m' (splitKey s) (splitShare o.amount s)) m)
      = bumpFold m (order_split_entries o) := by
  cases h : o.revenue_split with
  | none => simp [order_split_entries, h, bumpFold]
  | some rs =>
    simp only [order_split_entries, h, bumpFold, List.foldl_map]

theorem outer_fold_eq (l : List Order) :
    ∀ m : List (EntityKey × Int),
      l.foldl
        (fun m o =>
          match o.revenue_split with
          | none => m
          | some rs => rs.splits.foldl (fun m' s => bump m' (splitKey s) (splitShare o.amount s)) m)
        m = bumpFold m (l.flatMap order_split_entries) := by
  induction l with
  | nil => intro m; rfl
  | cons o rest ih =>
    intro m
    rw [List.foldl_cons, List.flatMap_cons, bumpFold_append, ← ih, inner_fold_eq]

theorem process_payout_report_eq (ps pe : Int) (orders : List Order) :
    process_payout_report ps pe orders =
      (bumpFold [] (period_entries ps pe orders)).map (fun kv =>
        { payee_type := kv.1.1, payee_id := kv.1.2, amount := kv.2,
          status := "pending", period_start := ps, period_end := pe }) := by
  exact congrArg _ (outer_fold_eq (orders.filter (order_in_period ps pe)) [])

theorem keysOf_order_split_entries (o : Order) :
    keysOf (order_split_entries o) = (order_splits o).map splitKey := by
  cases h : o.revenue_split <;>
    simp [order_split_entries, order_splits, h, keysOf, List.map_map, Function.comp]

theorem keysOf_append (xs ys : List (EntityKey × Int)) :
    keysOf (xs ++ ys) = keysOf xs ++ keysOf ys :=
  List.map_append ..

theorem keysOf_period_entries (ps pe : Int) (orders : List Order) :
    keysOf (period_entries ps pe orders) = period_split_pairs ps pe orders := by
  unfold period_entries period_split_pairs
  induction orders.filter (order_in_period ps pe) with
  | nil => rfl
  | cons o rest ih =>
    rw [List.flatMap_cons, List.flatMap_cons, keysOf_append, ih,
      keysOf_order_split_entries]

theorem esum_order_split_entries (o : Order) (k : EntityKey) :
    esum k (order_split_entries o) =
      (((order_splits o).filter (fun s => splitKey s = k)).map
        (fun s => splitShare o.amount s)).sum := by
  cases h : o.revenue_split with
  | none => simp [order_split_entries, order_splits, h, esum]
  | some rs =>
    simp only [order_split_entries, order_splits, h, esum, List.filter_map,
      List.map_map]
    rfl

theorem esum_period_entries (ps pe : Int) (orders : List Order) (k : EntityKey) :
    esum k (period_entries ps pe orders) = claim_share_sum ps pe orders k := by
  unfold period_entries claim_share_sum
  induction orders.filter (order_in_period ps pe) with
  | nil => simp [esum]
  | cons o rest ih =>
    rw [List.flatMap_cons, esum_append, List.map_cons, List.sum_cons, ih,
      esum_order_split_entries]

/-! ## Claims C1, C2, C9 about process_payout_report -/

/-- Paid order of minus one cent (amount is a plain IntegerField, so negative
amounts such as refunds are representable) with a fifty percent split. -/
def negOrder : Order :=
  { user := 1, description := "refund", amount := -1,
    revenue_split := some { splits :=
      [{ entity_type := some "guild", entity_id := some 1, percentage := some 50 }] },
    status := "paid", issued_date := 0, billed_at := none }

/-- Claim C1 counterexample: on a paid order of amount -1 cent with a 50
percent split, the created Payout has amount 0 because
`int(order.amount * percentage / 100)` truncates toward zero, while the
floor of -1 * 50 / 100 claimed by the spec is -1. -/
theorem payout_amount_not_floor_sum :
    (process_payout_report 0 0 [negOrder]).map Payout.amount = [0] ∧
      Int.fdiv (negOrder.amount * 50) 100 = -1 ∧
      (process_payout_report 0 0 [negOrder]).map Payout.amount ≠
        [Int.fdiv (negOrder.amount * 50) 100] := by
  refine ⟨by decide, by decide, by decide⟩

/-- Claim C1 (amended): for every run of process_payout_report and every
Payout it creates, the amount equals the sum, over matching paid orders and
over their split records for that entity, of `order.amount * percentage / 100`
truncated toward zero in integer cents (Python `int()` of the quotient); the
truncated share agrees with the floor claimed by the spec whenever
`order.amount * percentage` is nonnegative. -/
theorem payout_amount_eq_share_sum (ps pe : Int) (orders : List Order) (p : Payout)
    (hp : p ∈ process_payout_report ps pe orders) :
    p.amount = claim_share_sum ps pe orders (payout_key p) ∧
      ∀ (a : Int) (s : SplitEntry), 0 ≤ a * s.percentage.getD 0 →
        splitShare a s = Int.fdiv (a * s.percentage.getD 0) 100 := by
  constructor
  · rw [process_payout_report_eq] at hp
    rcases List.mem_map.mp hp with ⟨e, he, hpe⟩
    have hnodup := nodup_keysOf_bumpFold (period_entries ps pe orders) [] (by simp [keysOf])
    have hget := alGet_eq_some_of_mem _ e hnodup he
    have hfold := alGet_bumpFold (period_entries ps pe orders) [] e.1
    rw [show alGet e.1 ([] : List (EntityKey × Int)) = none from rfl] at hfold
    rw [hget] at hfold
    by_cases hmem : e.1 ∈ keysOf (period_entries ps pe orders)
    · rw [if_pos hmem] at hfold
      have he2 : e.2 = esum e.1 (period_entries ps pe orders) := by
        exact Option.some.inj hfold
      have hkey : payout_key p = e.1 := by
        rw [← hpe]; rfl
      have hamount : p.amount = e.2 := by
        rw [← hpe]
      rw [hamount, he2, hkey, esum_period_entries]
    · rw [if_neg hmem] at hfold
      exact absurd hfold (by simp)
  · intro a s hnn
    rw [splitShare, Int.tdiv_eq_ediv hnn (by omega), Int.fdiv_eq_ediv _ (by omega)]

/-- Witness for C1 at a concrete run: one paid order of 10000 cents with a 70
percent guild split yields a guild payout of 7000 cents, the truncated share
sum. -/
theorem payout_amount_eq_share_sum_check :
    ({ payee_type := "guild", payee_id := 1, amount := 7000, status := "pending",
       period_start := 0, period_end := 0 } : Payout).amount =
      claim_share_sum 0 0
        [{ user := 1, description := "tab", amount := 10000,
           revenue_split := some { splits :=
             [{ entity_type := some "guild", entity_id := some 1, percentage := some 70 }] },
           status := "paid", issued_date := 0, billed_at := none }]
        (payout_key { payee_type := "guild", payee_id := 1, amount := 7000,
                      status := "pending", period_start := 0, period_end := 0 }) ∧
      ∀ (a : Int) (s : SplitEntry), 0 ≤ a * s.percentage.getD 0 →
        splitShare a s = Int.fdiv (a * s.percentage.getD 0) 100 :=
  payout_amount_eq_share_sum 0 0
    [{ user := 1, description := "tab", amount := 10000,
       revenue_split := some { splits :=
         [{ entity_type := some "guild", entity_id := some 1, percentage := some 70 }] },
       status := "paid", issued_date := 0, billed_at := none }]
    { payee_type := "guild", payee_id := 1, amount := 7000, status := "pending",
      period_start := 0, period_end := 0 }
    (by decide)

/-- Claim C2: a run of process_payout_report creates exactly one Payout per
distinct `(entity_type, entity_id)` pair appearing in the splits lists of
orders that are paid, carry a non-null revenue_split and whose issued date
lies within the period (endpoints included); every created Payout is pending,
carries the period bounds, and is keyed by a pair from those orders; no
Payout arises for any other pair. -/
theorem process_payout_report_rows (ps pe : Int) (orders : List Order) :
    (∀ p ∈ process_payout_report ps pe orders,
        p.status = "pending" ∧ p.period_start = ps ∧ p.period_end = pe ∧
          payout_key p ∈ period_split_pairs ps pe orders) ∧
    ∀ k : EntityKey,
      ((process_payout_report ps pe orders).filter (fun p => payout_key p = k)).length =
        if k ∈ period_split_pairs ps pe orders then 1 else 0 := by
  have hnodup := nodup_keysOf_bumpFold (period_entries ps pe orders) [] (by simp [keysOf])
  constructor
  · intro p hp
    rw [process_payout_report_eq] at hp
    rcases List.mem_map.mp hp with ⟨e, he, hpe⟩
    refine ⟨by rw [← hpe], by rw [← hpe], by rw [← hpe], ?_⟩
    have hk : payout_key p = e.1 := by rw [← hpe]; rfl
    rw [hk, ← keysOf_period_entries]
    exact (mem_keysOf_bumpFold _ e.1).mp (List.mem_map.mpr ⟨e, he, rfl⟩)
  · intro k
    rw [process_payout_report_eq, List.filter_map]
    have hpred : ((fun p => decide (payout_key p = k)) ∘ (fun kv : EntityKey × Int =>
        ({ payee_type := kv.1.1, payee_id := kv.1.2, amount := kv.2,
           status := "pending", period_start := ps, period_end := pe } : Payout))) =
        fun e : EntityKey × Int => decide (e.1 = k) := by
      funext e
      simp [Function.comp, payout_key]
    rw [hpred, List.length_map,
      filter_key_length_of_nodup _ k hnodup]
    rw [if_congr ((mem_keysOf_bumpFold _ k).trans
      (by rw [keysOf_period_entries])) rfl rfl]

/-- Witness for C2 at a concrete run: one paid order with a 70/30 split
creates exactly the guild and org payouts, both pending with the period. -/
theorem process_payout_report_rows_check :
    (∀ p ∈ process_payout_report 0 0
        [{ user := 1, description := "tab", amount := 10000,
           revenue_split := some { splits :=
             [{ entity_type := some "guild", entity_id := some 1, percentage := some 70 },
              { entity_type := some "org", entity_id := some 1, percentage := some 30 }] },
           status := "paid", issued_date := 0, billed_at := none }],
        p.status = "pending" ∧ p.period_start = 0 ∧ p.period_end = 0 ∧
          payout_key p ∈ period_split_pairs 0 0
            [{ user := 1, description := "tab", amount := 10000,
               revenue_split := some { splits :=
                 [{ entity_type := some "guild", entity_id := some 1, percentage := some 70 },
                  { entity_type := some "org", entity_id := some 1, percentage := some 30 }] },
               status := "paid", issued_date := 0, billed_at := none }]) ∧
    ∀ k : EntityKey,
      ((process_payout_report 0 0
        [{ user := 1, description := "tab", amount := 10000,
           revenue_split := some { splits :=
             [{ entity_type := some "guild", entity_id := some 1, percentage := some 70 },
              { entity_type := some "org", entity_id := some 1, percentage := some 30 }] },
           status := "paid", issued_date := 0, billed_at := none }]).filter
        (fun p => payout_key p = k)).length =
        if k ∈ period_split_pairs 0 0
          [{ user := 1, description := "tab", amount := 10000,
             revenue_split := some { splits :=
               [{ entity_type := some "guild", entity_id := some 1, percentage := some 70 },
                { entity_type := some "org", entity_id := some 1, percentage := some 30 }] },
             status := "paid", issued_date := 0, billed_at := none }] then 1 else 0 :=
  process_payout_report_rows 0 0
    [{ user := 1, description := "tab", amount := 10000,
       revenue_split := some { splits :=
         [{ entity_type := some "guild", entity_id := some 1, percentage := some 70 },
          { entity_type := some "org", entity_id := some 1, percentage := some 30 }] },
       status := "paid", issued_date := 0, billed_at := none }]

/-- Paid order whose single split record has all three keys missing. -/
def emptySplitOrder : Order :=
  { user := 1, description := "sale", amount := 500,
    revenue_split := some { splits := [{ entity_type := none, entity_id := none, percentage := none }] },
    status := "paid", issued_date := 0, billed_at := none }

/-- Claim C9: missing keys of a split record never abort the run: a missing
entity_type defaults to the string org, a missing entity_id defaults to 0, a
missing percentage defaults to 0 so the entry contributes 0 cents, and a run
over an order whose only split record is empty creates exactly the pending
Payout keyed by org and 0 with amount 0. -/
theorem split_record_defaults :
    (∀ s : SplitEntry, s.entity_type = none → (splitKey s).1 = "org") ∧
    (∀ s : SplitEntry, s.entity_id = none → (splitKey s).2 = 0) ∧
    (∀ (a : Int) (s : SplitEntry), s.percentage = none → splitShare a s = 0) ∧
    process_payout_report 0 0 [emptySplitOrder] =
      [{ payee_type := "org", payee_id := 0, amount := 0, status := "pending",
         period_start := 0, period_end := 0 }] := by
  refine ⟨?_, ?_, ?_, by decide⟩
  · intro s h; simp [splitKey, h]
  · intro s h; simp [splitKey, h]
  · intro a s h; simp [splitShare, h]

/-! ## billing/stripe_utils.py — invoice creation (claims C3, C7) -/

/-- Row of `Invoice` (billing/models.py) restricted to the fields that
`create_invoice_for_user` writes; a line item is the (description, amount)
pair of one order. -/
structure Invoice where
  user : Nat
  stripe_invoice_id : String
  amount_due : Int
  status : String
  line_items : List (String × Int)
  pdf_url : String
  deriving DecidableEq, Repr

/-- Outcome of the Stripe API calls of lines 39-61 of stripe_utils.py:
either every call succeeds, giving the finalized Stripe invoice id and its
optional pdf link, or some call raises stripe.StripeError. -/
inductive StripeOutcome where
  | ok (invoiceId : String) (invoicePdf : Option String)
  | error
  deriving DecidableEq, Repr

/-- Lines 82-95 of stripe_utils.py, `_create_local_invoice`: an invoice with
no Stripe id, the summed order amounts, open status, one line item per order
and no pdf link. -/
def create_local_invoice (user : Nat) (orders : List Order) : Invoice :=
  { user := user, stripe_invoice_id := "",
    amount_due := (orders.map Order.amount).sum,
    status := "open",
    line_items := orders.map (fun o => (o.description, o.amount)),
    pdf_url := "" }

/-- Lines 26-79 of stripe_utils.py, `create_invoice_for_user`, with the
environment explicit: `apiKey` is the value `get_stripe_key()` returns and
`st` the behaviour of the Stripe calls.  An empty (falsy) key takes the
local fallback of line 36; with a key, success creates the open
Stripe-backed invoice of lines 63-75 (empty pdf_url when
`stripe_invoice.invoice_pdf` is None), and a raised stripe.StripeError hits
the handler of lines 77-79, returning None with no invoice created. -/
def create_invoice_for_user (apiKey : String) (st : StripeOutcome)
    (user : Nat) (orders : List Order) : Option Invoice :=
  if apiKey = "" then some (create_local_invoice user orders)
  else
    match st with
    | .ok invoiceId invoicePdf =>
      some { user := user, stripe_invoice_id := invoiceId,
             amount_due := (orders.map Order.amount).sum,
             status := "open",
             line_items := orders.map (fun o => (o.description, o.amount)),
             pdf_url := invoicePdf.getD "" }
    | .error => none

/-- Order used as a concrete input in several checks below. -/
def tabOrder : Order :=
  { user := 1, description := "materials", amount := 2000, revenue_split := none,
    status := "on_tab", issued_date := 0, billed_at := none }

/-- Claim C3 counterexample: with a configured API key and a Stripe call
raising stripe.StripeError, create_invoice_for_user returns None and no
invoice of any kind is created — an outcome the claim says cannot happen. -/
theorem create_invoice_error_returns_none :
    create_invoice_for_user "sk_test_key" StripeOutcome.error 1 [tabOrder] = none := by
  rfl

/-- Claim C3 (amended): invoice creation returns an Invoice exactly when no
API key is configured (then always the local-only fallback) or the Stripe
calls succeed; when a key is configured and a Stripe call raises
stripe.StripeError, the call returns None and no invoice is created.  The
Stripe-unreachable case is thus not a fallback but the one failure mode. -/
theorem create_invoice_result_cases (apiKey : String) (st : StripeOutcome)
    (user : Nat) (orders : List Order) :
    (create_invoice_for_user apiKey st user orders = none ↔
      apiKey ≠ "" ∧ st = StripeOutcome.error) ∧
    (apiKey = "" →
      create_invoice_for_user apiKey st user orders =
        some (create_local_invoice user orders)) := by
  unfold create_invoice_for_user
  by_cases hk : apiKey = ""
  · rw [if_pos hk]
    refine ⟨?_, fun _ => rfl⟩
    simp [hk]
  · rw [if_neg hk]
    cases st <;> simp [hk]

/-- Claim C7: whenever create_invoice_for_user creates an invoice, through
the Stripe path or the local fallback, its amount_due is the sum of the
orders' amount fields, its line_items list holds exactly one (description,
amount) entry per order, and its status is open. -/
theorem invoice_fields_correct (apiKey : String) (st : StripeOutcome)
    (user : Nat) (orders : List Order) (inv : Invoice)
    (h : create_invoice_for_user apiKey st user orders = some inv) :
    inv.amount_due = (orders.map Order.amount).sum ∧
      inv.line_items = orders.map (fun o => (o.description, o.amount)) ∧
      inv.status = "open" := by
  unfold create_invoice_for_user at h
  by_cases hk : apiKey = ""
  · rw [if_pos hk] at h
    cases Option.some.inj h
    exact ⟨rfl, rfl, rfl⟩
  · rw [if_neg hk] at h
    cases st with
    | ok invoiceId invoicePdf =>
      cases Option.some.inj h
      exact ⟨rfl, rfl, rfl⟩
    | error => cases h

/-- Witness for C7 at a concrete input: the local fallback invoice for one
order of 2000 cents. -/
theorem invoice_fields_correct_check :
    (create_local_invoice 1 [tabOrder]).amount_due = ([tabOrder].map Order.amount).sum ∧
      (create_local_invoice 1 [tabOrder]).line_items =
        [tabOrder].map (fun o => (o.description, o.amount)) ∧
      (create_local_invoice 1 [tabOrder]).status = "open" :=
  invoice_fields_correct "" StripeOutcome.error 1 [tabOrder]
    (create_local_invoice 1 [tabOrder]) rfl

/-! ## billing/management/commands/bill_tabs.py (claim C6) -/

/-- Message the bill_tabs command writes: the no-tabs warning, the success
line of one user (with order count and invoice total), the failure line of
one user, or the final summary with the billed-user count. -/
inductive BillMsg where
  | warnNoTabs
  | billedUser (user : Nat) (orderCount : Nat) (amountDue : Int)
  | failedUser (user : Nat)
  | summary (billedCount : Nat)
  deriving DecidableEq, Repr

/-- Status test `status == Order.Status.ON_TAB`. -/
def is_on_tab (o : Order) : Bool :=
  o.status == "on_tab"

/-- Line 25 of bill_tabs.py:
`Order.objects.filter(user=user, status=Order.Status.ON_TAB)`. -/
def tab_orders_of (orders : List Order) (u : Nat) : List Order :=
  orders.filter (fun o => o.user == u && is_on_tab o)

/-- Effect of line 32, `tab_orders.update(status=BILLED, billed_at=now)`, on
one matched row. -/
def bill_order (now : Int) (o : Order) : Order :=
  { o with status := "billed", billed_at := some now }

/-- Effect of line 32 on the whole order table: rows of `u` that are on tab
become billed, all other rows are untouched. -/
def bill_user_orders (now : Int) (u : Nat) (orders : List Order) : List Order :=
  orders.map (fun o => if o.user == u && is_on_tab o then bill_order now o else o)

/-- First-occurrence deduplication, modelling `.distinct()`. -/
def dedup_first (seen : List Nat) : List Nat → List Nat
  | [] => []
  | u :: rest =>
    if seen.contains u then dedup_first seen rest
    else u :: dedup_first (u :: seen) rest

/-- Line 17 of bill_tabs.py:
`User.objects.filter(orders__status=ON_TAB).distinct()`, in first-occurrence
order of the order table. -/
def users_with_tabs (orders : List Order) : List Nat :=
  dedup_first [] ((orders.filter is_on_tab).map Order.user)

/-- Lines 24-41 of bill_tabs.py, the per-user loop.  `invoiceOf` stands for
`create_invoice_for_user` as called on the current tab orders.  The state is
the order table; the result carries the final table, the per-user messages
and the billed-user count. -/
def bill_tabs_loop (invoiceOf : Nat → List Order → Option Invoice) (now : Int) :
    List Nat → List Order → List Order × List BillMsg × Nat
  | [], orders => (orders, [], 0)
  | u :: us, orders =>
    let tabs := tab_orders_of orders u
    if tabs.isEmpty then bill_tabs_loop invoiceOf now us orders
    else
      match invoiceOf u tabs with
      | some inv =>
        let r := bill_tabs_loop invoiceOf now us (bill_user_orders now u orders)
        (r.1, BillMsg.billedUser u tabs.length inv.amount_due :: r.2.1, r.2.2 + 1)
      | none =>
        let r := bill_tabs_loop invoiceOf now us orders
        (r.1, BillMsg.failedUser u :: r.2.1, r.2.2)

/-- Lines 16-43 of bill_tabs.py, `Command.handle`: warn and stop when no user
has a tab, otherwise run the loop and append the summary line. -/
def bill_tabs (invoiceOf : Nat → List Order → Option Invoice) (now : Int)
    (orders : List Order) : List Order × List BillMsg :=
  let users := users_with_tabs orders
  if users.isEmpty then (orders, [BillMsg.warnNoTabs])
  else
    let r := bill_tabs_loop invoiceOf now users orders
    (r.1, r.2.1 ++ [BillMsg.summary r.2.2])

/-! ### Row agreement relations for the bill_tabs proof -/

/-- Rows of user `u` unchanged, user column of every row unchanged. -/
def OrdAgree (u : Nat) (a b : Order) : Prop :=
  b.user = a.user ∧ (a.user = u → b = a)

/-- Rows of user `u` billed when they were on tab and unchanged otherwise;
user column of every row unchanged. -/
def BilledAgree (now : Int) (u : Nat) (a b : Order) : Prop :=
  b.user = a.user ∧
    (a.user = u → b = (if is_on_tab a then bill_order now a else a))

theorem forall₂_ordAgree_refl (u : Nat) (l : List Order) :
    List.Forall₂ (OrdAgree u) l l :=
  List.forall₂_same.mpr (fun _ _ => ⟨rfl, fun _ => rfl⟩)

theorem forall₂_trans_of {α : Type} {r s t : α → α → Prop}
    (h : ∀ a b c, r a b → s b c → t a c) :
    ∀ {xs ys zs : List α}, List.Forall₂ r xs ys → List.Forall₂ s ys zs →
      List.Forall₂ t xs zs := by
  intro xs ys zs h1
  induction h1 generalizing zs with
  | nil =>
    intro h2
    cases h2
    exact List.Forall₂.nil
  | cons hr _ ih =>
    intro h2
    cases h2 with
    | cons hs h2rest => exact List.Forall₂.cons (h _ _ _ hr hs) (ih h2rest)

theorem ordAgree_trans (u : Nat) :
    ∀ a b c, OrdAgree u a b → OrdAgree u b c → OrdAgree u a c := by
  intro a b c ⟨hu1, he1⟩ ⟨hu2, he2⟩
  refine ⟨hu2.trans hu1, fun ha => ?_⟩
  rw [he2 (hu1.trans ha), he1 ha]

theorem billedAgree_of_ordAgree (now : Int) (u : Nat) :
    ∀ a b c, BilledAgree now u a b → OrdAgree u b c → BilledAgree now u a c := by
  intro a b c ⟨hu1, he1⟩ ⟨hu2, he2⟩
  refine ⟨hu2.trans hu1, fun ha => ?_⟩
  have hb : b = if is_on_tab a then bill_order now a else a := he1 ha
  have hbu : b.user = u := hu1.trans ha
  rw [he2 hbu, hb]

theorem tab_orders_of_agree (u : Nat) :
    ∀ {xs ys : List Order}, List.Forall₂ (OrdAgree u) xs ys →
      tab_orders_of ys u = tab_orders_of xs u := by
  intro xs ys h
  induction h with
  | nil => rfl
  | cons hr hrest ih =>
    rename_i a b l1 l2
    rcases hr with ⟨hu, he⟩
    by_cases ha : a.user = u
    · rw [he ha]
      simp only [tab_orders_of, List.filter_cons] at ih ⊢
      rw [ih]
    · have hbu : b.user ≠ u := fun hh => ha (hu ▸ hh)
      simp only [tab_orders_of, List.filter_cons] at ih ⊢
      have h1 : (a.user == u) = false := by simpa using ha
      have h2 : (b.user == u) = false := by simpa using hbu
      rw [h1, h2]
      simpa using ih

theorem bill_user_orders_other (now : Int) (u u' : Nat) (hne : u' ≠ u)
    (xs : List Order) :
    List.Forall₂ (OrdAgree u) xs (bill_user_orders now u' xs) := by
  induction xs with
  | nil => exact List.Forall₂.nil
  | cons a rest ih =>
    refine List.Forall₂.cons ?_ ih
    by_cases hc : (a.user == u' && is_on_tab a) = true
    · refine ⟨?_, fun ha => ?_⟩
      · simp [bill_user_orders, hc, bill_order]
      · exfalso
        have : a.user = u' := by
          have := (Bool.and_eq_true _ _).mp hc
          simpa using this.1
        exact hne (this ▸ ha ▸ rfl) |>.elim
    · have hc' : (a.user == u' && is_on_tab a) = false := by
        simpa using hc
      exact ⟨by simp [bill_user_orders, hc'], fun _ => by simp [bill_user_orders, hc']⟩

theorem bill_user_orders_self (now : Int) (u : Nat) :
    ∀ {xs ys : List Order}, List.Forall₂ (OrdAgree u) xs ys →
      List.Forall₂ (BilledAgree now u) xs (bill_user_orders now u ys) := by
  intro xs ys h
  induction h with
  | nil => exact List.Forall₂.nil
  | cons hr hrest ih =>
    rename_i a b l1 l2
    rcases hr with ⟨hu, he⟩
    refine List.Forall₂.cons ?_ ih
    by_cases ha : a.user = u
    · have hb : b = a := he ha
      subst hb
      have htest : (b.user == u) = true := by simpa using ha
      refine ⟨?_, fun _ => ?_⟩
      · by_cases ht : is_on_tab b = true <;>
          simp [bill_user_orders, htest, ht, bill_order]
      · by_cases ht : is_on_tab b = true <;>
          simp [bill_user_orders, htest, ht]
    · have hbu : b.user ≠ u := fun hh => ha (hu ▸ hh)
      have htest : (b.user == u) = false := by simpa using hbu
      refine ⟨?_, fun hh => absurd hh ha⟩
      simp only [htest, Bool.false_and, Bool.false_eq_true, if_false]
      exact hu

theorem mem_dedup_first :
    ∀ (l seen : List Nat) (x : Nat), x ∈ dedup_first seen l → x ∈ l ∧ x ∉ seen := by
  intro l
  induction l with
  | nil =>
    intro seen x hx
    cases hx
  | cons u rest ih =>
    intro seen x hx
    simp only [dedup_first] at hx
    by_cases hc : seen.contains u = true
    · rw [if_pos hc] at hx
      rcases ih seen x hx with ⟨h1, h2⟩
      exact ⟨List.mem_cons_of_mem _ h1, h2⟩
    · rw [if_neg hc] at hx
      rcases List.mem_cons.mp hx with h | h
      · subst h
        refine ⟨List.mem_cons_self _ _, fun hseen => hc ?_⟩
        simpa using hseen
      · rcases ih (u :: seen) x h with ⟨h1, h2⟩
        exact ⟨List.mem_cons_of_mem _ h1, fun hs => h2 (List.mem_cons_of_mem _ hs)⟩

theorem nodup_dedup_first : ∀ (l seen : List Nat), (dedup_first seen l).Nodup := by
  intro l
  induction l with
  | nil => intro seen; simp [dedup_first]
  | cons u rest ih =>
    intro seen
    simp only [dedup_first]
    by_cases hc : seen.contains u = true
    · rw [if_pos hc]
      exact ih seen
    · rw [if_neg hc]
      refine List.nodup_cons.mpr ⟨?_, ih (u :: seen)⟩
      intro hmem
      rcases mem_dedup_first rest (u :: seen) u hmem with ⟨_, hnot⟩
      exact hnot (List.mem_cons_self _ _)

theorem users_with_tabs_nodup (orders : List Order) : (users_with_tabs orders).Nodup :=
  nodup_dedup_first _ _

theorem tab_orders_ne_nil_of_mem (orders : List Order) (u : Nat)
    (hu : u ∈ users_with_tabs orders) : tab_orders_of orders u ≠ [] := by
  rcases mem_dedup_first _ _ _ hu with ⟨hmem, _⟩
  rcases List.mem_map.mp hmem with ⟨o, ho, houser⟩
  have ho2 := List.mem_filter.mp ho
  intro hnil
  have hin : o ∈ tab_orders_of orders u := by
    apply List.mem_filter.mpr
    refine ⟨ho2.1, ?_⟩
    simp [houser, ho2.2]
  rw [hnil] at hin
  cases hin

theorem bill_tabs_loop_preserves (invoiceOf : Nat → List Order → Option Invoice)
    (now : Int) (u : Nat) :
    ∀ (us : List Nat) (cur : List Order), u ∉ us →
      List.Forall₂ (OrdAgree u) cur (bill_tabs_loop invoiceOf now us cur).1 := by
  intro us
  induction us with
  | nil =>
    intro cur _
    exact forall₂_ordAgree_refl u cur
  | cons u' us' ih =>
    intro cur hnot
    have hne : u' ≠ u := fun hh => hnot (hh ▸ List.mem_cons_self _ _)
    have hnot' : u ∉ us' := fun hh => hnot (List.mem_cons_of_mem _ hh)
    simp only [bill_tabs_loop]
    by_cases hempty : (tab_orders_of cur u').isEmpty = true
    · rw [if_pos hempty]
      exact ih cur hnot'
    · rw [if_neg hempty]
      cases hinv : invoiceOf u' (tab_orders_of cur u') with
      | some inv =>
        exact forall₂_trans_of (ordAgree_trans u)
          (bill_user_orders_other now u u' hne cur)
          (ih (bill_user_orders now u' cur) hnot')
      | none =>
        exact ih cur hnot'

theorem bill_tabs_loop_user (invoiceOf : Nat → List Order → Option Invoice)
    (now : Int) (u : Nat) (orders0 : List Order) :
    ∀ (us : List Nat) (cur : List Order), us.Nodup → u ∈ us →
      List.Forall₂ (OrdAgree u) orders0 cur →
      tab_orders_of orders0 u ≠ [] →
      ((∀ inv, invoiceOf u (tab_orders_of orders0 u) = some inv →
          List.Forall₂ (BilledAgree now u) orders0 (bill_tabs_loop invoiceOf now us cur).1) ∧
        (invoiceOf u (tab_orders_of orders0 u) = none →
          List.Forall₂ (OrdAgree u) orders0 (bill_tabs_loop invoiceOf now us cur).1 ∧
            BillMsg.failedUser u ∈ (bill_tabs_loop invoiceOf now us cur).2.1)) := by
  intro us
  induction us with
  | nil =>
    intro cur _ hu
    cases hu
  | cons u' us' ih =>
    intro cur hnodup hu hagree htabs
    have hnodup' : us'.Nodup := (List.nodup_cons.mp hnodup).2
    by_cases heq : u' = u
    · subst heq
      have hfilter : tab_orders_of cur u' = tab_orders_of orders0 u' :=
        tab_orders_of_agree u' hagree
      have hne2 : tab_orders_of cur u' ≠ [] := by
        rw [hfilter]; exact htabs
      have hempty : (tab_orders_of cur u').isEmpty = false := by
        cases h : tab_orders_of cur u' with
        | nil => exact absurd h hne2
        | cons a l => rfl
      have hu_notin : u' ∉ us' := (List.nodup_cons.mp hnodup).1
      rw [hfilter] at hempty
      simp only [bill_tabs_loop, hfilter, hempty, Bool.false_eq_true, if_false]
      cases hinv : invoiceOf u' (tab_orders_of orders0 u') with
      | some inv =>
        refine ⟨fun inv' _ => ?_, fun hnone => ?_⟩
        · exact forall₂_trans_of (billedAgree_of_ordAgree now u')
            (bill_user_orders_self now u' hagree)
            (bill_tabs_loop_preserves invoiceOf now u' us'
              (bill_user_orders now u' cur) hu_notin)
        · exact Option.noConfusion hnone
      | none =>
        refine ⟨fun inv' hinv' => ?_, fun _ => ?_⟩
        · exact Option.noConfusion hinv'
        · refine ⟨forall₂_trans_of (ordAgree_trans u') hagree
            (bill_tabs_loop_preserves invoiceOf now u' us' cur hu_notin),
            List.mem_cons_self _ _⟩
    · have hu' : u ∈ us' := by
        rcases List.mem_cons.mp hu with h | h
        · exact absurd h.symm heq
        · exact h
      simp only [bill_tabs_loop]
      by_cases hempty : (tab_orders_of cur u').isEmpty = true
      · rw [if_pos hempty]
        exact ih cur hnodup' hu' hagree htabs
      · rw [if_neg hempty]
        cases hinv : invoiceOf u' (tab_orders_of cur u') with
        | some inv =>
          have hagree' : List.Forall₂ (OrdAgree u) orders0 (bill_user_orders now u' cur) :=
            forall₂_trans_of (ordAgree_trans u) hagree
              (bill_user_orders_other now u u' heq cur)
          rcases ih (bill_user_orders now u' cur) hnodup' hu' hagree' htabs with ⟨ha1, ha2⟩
          refine ⟨fun inv' h => ha1 inv' h, fun hnone => ?_⟩
          rcases ha2 hnone with ⟨hagg, hmem⟩
          exact ⟨hagg, List.mem_cons_of_mem _ hmem⟩
        | none =>
          rcases ih cur hnodup' hu' hagree htabs with ⟨ha1, ha2⟩
          refine ⟨fun inv' h => ha1 inv' h, fun hnone => ?_⟩
          rcases ha2 hnone with ⟨hagg, hmem⟩
          exact ⟨hagg, List.mem_cons_of_mem _ hmem⟩

/-- Claim C6: for every user the bill_tabs command processes (a user with at
least one on-tab order): if invoice creation returns an invoice, every order
row of that user that was on tab is now billed with billed_at set to the run
timestamp and the other rows of that user are untouched (`BilledAgree`
row-wise); if invoice creation returns None, every row of that user is
unchanged (`OrdAgree` row-wise) and the failure line for that user is
written.  Rows of other users are never touched by that user's step (the
user column is preserved for every row in both relations). -/
theorem bill_tabs_user_outcome (invoiceOf : Nat → List Order → Option Invoice)
    (now : Int) (orders : List Order) (u : Nat)
    (hu : u ∈ users_with_tabs orders) :
    (∀ inv, invoiceOf u (tab_orders_of orders u) = some inv →
        List.Forall₂ (BilledAgree now u) orders (bill_tabs invoiceOf now orders).1) ∧
      (invoiceOf u (tab_orders_of orders u) = none →
        List.Forall₂ (OrdAgree u) orders (bill_tabs invoiceOf now orders).1 ∧
          BillMsg.failedUser u ∈ (bill_tabs invoiceOf now orders).2) := by
  have hne : users_with_tabs orders ≠ [] := List.ne_nil_of_mem hu
  have hempty : (users_with_tabs orders).isEmpty = false := by
    cases h : users_with_tabs orders with
    | nil => exact absurd h hne
    | cons a l => rfl
  have hmain := bill_tabs_loop_user invoiceOf now u orders (users_with_tabs orders)
    orders (users_with_tabs_nodup orders) hu (forall₂_ordAgree_refl u orders)
    (tab_orders_ne_nil_of_mem orders u hu)
  have hbt : bill_tabs invoiceOf now orders =
      ((bill_tabs_loop invoiceOf now (users_with_tabs orders) orders).1,
       (bill_tabs_loop invoiceOf now (users_with_tabs orders) orders).2.1 ++
         [BillMsg.summary (bill_tabs_loop invoiceOf now (users_with_tabs orders) orders).2.2]) := by
    simp only [bill_tabs, hempty, Bool.false_eq_true, if_false]
  rw [hbt]
  exact ⟨fun inv h => hmain.1 inv h,
    fun hnone => ⟨(hmain.2 hnone).1, List.mem_append_left _ (hmain.2 hnone).2⟩⟩

/-- Witness for C6 at a concrete run: one user with one on-tab order, billed
through an always-succeeding invoice oracle. -/
theorem bill_tabs_user_outcome_check :
    (∀ inv, (fun u os => some (create_local_invoice u os)) 1 (tab_orders_of [tabOrder] 1) = some inv →
        List.Forall₂ (BilledAgree 5 1) [tabOrder]
          (bill_tabs (fun u os => some (create_local_invoice u os)) 5 [tabOrder]).1) ∧
      ((fun u os => some (create_local_invoice u os)) 1 (tab_orders_of [tabOrder] 1) = none →
        List.Forall₂ (OrdAgree 1) [tabOrder]
          (bill_tabs (fun u os => some (create_local_invoice u os)) 5 [tabOrder]).1 ∧
          BillMsg.failedUser 1 ∈ (bill_tabs (fun u os => some (create_local_invoice u os)) 5 [tabOrder]).2) :=
  bill_tabs_user_outcome (fun u os => some (create_local_invoice u os)) 5 [tabOrder] 1
    (by decide)

/-! ## newplos/auto_admin.py (claim C8) -/

/-- The attributes of a Django model field that the introspection helpers of
auto_admin.py read: its name, whether it is concrete, a primary key or
auto-created, and its type tests (CharField, TextField, truthy choices,
BooleanField, DateField-or-DateTimeField, ForeignKey). -/
structure FieldMeta where
  name : String
  concrete : Bool
  primary_key : Bool
  auto_created : Bool
  is_char : Bool
  is_text : Bool
  has_choices : Bool
  is_bool : Bool
  is_date : Bool
  is_fk : Bool
  deriving DecidableEq, Repr

/-- An installed Django model as register_all_models sees it: its name, the
name of its app config, whether it is abstract, and its fields in
`_meta.get_fields()` order. -/
structure ModelMeta where
  name : String
  app_name : String
  abstract : Bool
  fields : List FieldMeta
  deriving DecidableEq, Repr

/-- Lines 49-65 of auto_admin.py, `get_list_display_fields` with the default
`max_fields=6`: collect concrete non-auto-created non-pk field names, record
the (last) primary key name, put the pk first, cap at six entries, and fall
back to `__str__` when nothing was found.  The Python `if pk_field:` test is
string truthiness, so an empty pk name is skipped. -/
def get_list_display_fields (m : ModelMeta) : List String :=
  let acc := m.fields.foldl
    (fun (acc : List String × Option String) f =>
      if !f.concrete then acc
      else if f.primary_key then (acc.1, some f.name)
      else if f.auto_created then acc
      else (acc.1 ++ [f.name], acc.2))
    ([], none)
  let result := match acc.2 with
    | some pk => if pk = "" then [] else [pk]
    | none => []
  let result := result ++ acc.1.take (6 - result.length)
  if result.isEmpty then ["__str__"] else result

/-- Lines 68-76 of auto_admin.py, `get_search_fields`: names of concrete,
non-auto-created CharField or TextField fields without truthy choices. -/
def get_search_fields (m : ModelMeta) : List String :=
  m.fields.foldl
    (fun acc f =>
      if !f.concrete || f.auto_created then acc
      else if f.is_char || f.is_text then
        if !f.has_choices then acc ++ [f.name] else acc
      else acc)
    []

/-- Lines 79-92 of auto_admin.py, `get_list_filter_fields`: names of
concrete, non-auto-created, non-pk fields that have choices or are boolean,
date/datetime or foreign-key fields. -/
def get_list_filter_fields (m : ModelMeta) : List String :=
  m.fields.foldl
    (fun acc f =>
      if !f.concrete || f.auto_created || f.primary_key then acc
      else if f.has_choices then acc ++ [f.name]
      else if f.is_bool then acc ++ [f.name]
      else if f.is_date then acc ++ [f.name]
      else if f.is_fk then acc ++ [f.name]
      else acc)
    []

/-- The generated admin class: `list_display` always set, `search_fields`
and `list_filter` only when non-empty (lines 99-103 of auto_admin.py). -/
structure AdminClass where
  list_display : List String
  search_fields : Option (List String)
  list_filter : Option (List String)
  deriving DecidableEq, Repr

/-- Lines 95-104 of auto_admin.py, `create_model_admin`. -/
def create_model_admin (m : ModelMeta) : AdminClass :=
  let sf := get_search_fields m
  let lf := get_list_filter_fields m
  { list_display := get_list_display_fields m,
    search_fields := if sf.isEmpty then none else some sf,
    list_filter := if lf.isEmpty then none else some lf }

/-- Lines 16-33 of auto_admin.py, the `EXCLUDED_APPS` set. -/
def EXCLUDED_APPS : List String :=
  ["django.contrib.admin", "django.contrib.auth", "django.contrib.contenttypes",
   "django.contrib.sessions", "django.contrib.messages", "django.contrib.staticfiles",
   "django.contrib.sites", "unfold", "unfold.contrib.forms", "allauth",
   "allauth.account", "allauth.socialaccount", "allauth.socialaccount.providers.google",
   "allauth.socialaccount.providers.github", "allauth.socialaccount.providers.discord",
   "django_extensions"]

/-- The admin site registry `admin.site._registry`, as model/admin pairs. -/
abbrev AdminRegistry := List (ModelMeta × AdminClass)

/-- Lines 107-108 of auto_admin.py, `is_model_registered`. -/
def is_model_registered (reg : AdminRegistry) (m : ModelMeta) : Bool :=
  reg.any (fun e => e.1 = m)

/-- Lines 111-121 of auto_admin.py, `register_all_models`, over the list of
installed models and the registry it starts from: a model of an excluded
app, an abstract model or an already registered model is skipped, every
other model is registered with its generated admin class.  Returns the
final registry with the registered and skipped counts. -/
def register_all_models : List ModelMeta → AdminRegistry → AdminRegistry × Nat × Nat
  | [], reg => (reg, 0, 0)
  | m :: rest, reg =>
    if EXCLUDED_APPS.contains m.app_name || m.abstract || is_model_registered reg m then
      let r := register_all_models rest reg
      (r.1, r.2.1, r.2.2 + 1)
    else
      let r := register_all_models rest (reg ++ [(m, create_model_admin m)])
      (r.1, r.2.1 + 1, r.2.2)

theorem register_all_models_delta (models : List ModelMeta) :
    ∀ reg : AdminRegistry, ∃ Δ : AdminRegistry,
      (register_all_models models reg).1 = reg ++ Δ ∧
        ∀ e ∈ Δ, e.1 ∈ models ∧ e.1.app_name ∉ EXCLUDED_APPS ∧
          e.1.abstract = false ∧ e.2 = create_model_admin e.1 := by
  induction models with
  | nil =>
    intro reg
    exact ⟨[], by simp [register_all_models]⟩
  | cons m rest ih =>
    intro reg
    by_cases hcond :
        (EXCLUDED_APPS.contains m.app_name || m.abstract || is_model_registered reg m) = true
    · rcases ih reg with ⟨Δ, hΔeq, hΔmem⟩
      refine ⟨Δ, ?_, ?_⟩
      · simp only [register_all_models, hcond, if_true]
        exact hΔeq
      · intro e he
        rcases hΔmem e he with ⟨h1, h2, h3, h4⟩
        exact ⟨List.mem_cons_of_mem _ h1, h2, h3, h4⟩
    · have hparts : EXCLUDED_APPS.contains m.app_name = false ∧
          m.abstract = false ∧ is_model_registered reg m = false := by
        constructor
        · cases hx : EXCLUDED_APPS.contains m.app_name
          · rfl
          · exfalso; apply hcond; rw [hx]; rfl
        constructor
        · cases hx : m.abstract
          · rfl
          · exfalso; apply hcond; rw [hx]; simp
        · cases hx : is_model_registered reg m
          · rfl
          · exfalso; apply hcond; rw [hx]; simp
      rcases ih (reg ++ [(m, create_model_admin m)]) with ⟨Δ, hΔeq, hΔmem⟩
      refine ⟨(m, create_model_admin m) :: Δ, ?_, ?_⟩
      · have hcond' :
            (EXCLUDED_APPS.contains m.app_name || m.abstract || is_model_registered reg m) = false := by
          rw [hparts.1, hparts.2.1, hparts.2.2]
          rfl
        simp only [register_all_models, hcond', Bool.false_eq_true, if_false]
        rw [hΔeq, List.append_assoc]
        rfl
      · intro e he
        rcases List.mem_cons.mp he with h | h
        · subst h
          refine ⟨List.mem_cons_self _ _, ?_, hparts.2.1, rfl⟩
          intro hmem
          have hcontra : EXCLUDED_APPS.contains m.app_name = true := by
            simpa using hmem
          rw [hparts.1] at hcontra
          cases hcontra
        · rcases hΔmem e h with ⟨h1, h2, h3, h4⟩
          exact ⟨List.mem_cons_of_mem _ h1, h2, h3, h4⟩

theorem mem_register_all_models_of_mem (models : List ModelMeta) (reg : AdminRegistry)
    (e : ModelMeta × AdminClass) (he : e ∈ reg) :
    e ∈ (register_all_models models reg).1 := by
  rcases register_all_models_delta models reg with ⟨Δ, heq, _⟩
  rw [heq]
  exact List.mem_append_left _ he

theorem is_model_registered_mono (models : List ModelMeta) (reg : AdminRegistry)
    (m : ModelMeta) (h : is_model_registered reg m = true) :
    is_model_registered (register_all_models models reg).1 m = true := by
  rcases List.any_eq_true.mp h with ⟨e, he, hem⟩
  exact List.any_eq_true.mpr ⟨e, mem_register_all_models_of_mem models reg e he, hem⟩

theorem register_all_models_registers (models : List ModelMeta) :
    ∀ reg : AdminRegistry, ∀ m ∈ models, m.app_name ∉ EXCLUDED_APPS → m.abstract = false →
      is_model_registered (register_all_models models reg).1 m = true := by
  induction models with
  | nil =>
    intro reg m hm
    cases hm
  | cons m' rest ih =>
    intro reg m hm hexcl habs
    rcases List.mem_cons.mp hm with heq | hmem
    · subst heq
      have hexcl_b : EXCLUDED_APPS.contains m.app_name = false := by
        cases hx : EXCLUDED_APPS.contains m.app_name
        · rfl
        · exact absurd (by simpa using hx) hexcl
      by_cases hreg : is_model_registered reg m = true
      · have hcond : (EXCLUDED_APPS.contains m.app_name || m.abstract ||
            is_model_registered reg m) = true := by
          rw [hreg]
          simp
        simp only [register_all_models, hcond, if_true]
        exact is_model_registered_mono rest reg m hreg
      · have hreg' : is_model_registered reg m = false := by
          cases hx : is_model_registered reg m
          · rfl
          · exact absurd hx hreg
        have hcond : (EXCLUDED_APPS.contains m.app_name || m.abstract ||
            is_model_registered reg m) = false := by
          rw [hexcl_b, habs, hreg']
          rfl
        simp only [register_all_models, hcond, Bool.false_eq_true, if_false]
        apply is_model_registered_mono
        exact List.any_eq_true.mpr ⟨(m, create_model_admin m),
          List.mem_append_right _ (List.mem_singleton.mpr rfl), by simp⟩
    · by_cases hcond : (EXCLUDED_APPS.contains m'.app_name || m'.abstract ||
          is_model_registered reg m') = true
      · simp only [register_all_models, hcond, if_true]
        exact ih reg m hmem hexcl habs
      · have hcond2 : (EXCLUDED_APPS.contains m'.app_name || m'.abstract ||
            is_model_registered reg m') = false := by
          simpa using hcond
        simp only [register_all_models, hcond2, Bool.false_eq_true, if_false]
        exact ih (reg ++ [(m', create_model_admin m')]) m hmem hexcl habs

theorem register_all_models_auto_admin (models : List ModelMeta) :
    ∀ reg : AdminRegistry, ∀ m ∈ models, m.app_name ∉ EXCLUDED_APPS → m.abstract = false →
      is_model_registered reg m = false →
      (m, create_model_admin m) ∈ (register_all_models models reg).1 := by
  induction models with
  | nil =>
    intro reg m hm
    cases hm
  | cons m' rest ih =>
    intro reg m hm hexcl habs hreg
    rcases List.mem_cons.mp hm with heq | hmem
    · subst heq
      have hexcl_b : EXCLUDED_APPS.contains m.app_name = false := by
        cases hx : EXCLUDED_APPS.contains m.app_name
        · rfl
        · exact absurd (by simpa using hx) hexcl
      have hcond : (EXCLUDED_APPS.contains m.app_name || m.abstract ||
          is_model_registered reg m) = false := by
        rw [hexcl_b, habs, hreg]
        rfl
      simp only [register_all_models, hcond, Bool.false_eq_true, if_false]
      exact mem_register_all_models_of_mem rest _ _
        (List.mem_append_right _ (List.mem_singleton.mpr rfl))
    · by_cases hcond : (EXCLUDED_APPS.contains m'.app_name || m'.abstract ||
          is_model_registered reg m') = true
      · simp only [register_all_models, hcond, if_true]
        exact ih reg m hmem hexcl habs hreg
      · have hcond2 : (EXCLUDED_APPS.contains m'.app_name || m'.abstract ||
            is_model_registered reg m') = false := by
          simpa using hcond
        simp only [register_all_models, hcond2, Bool.false_eq_true, if_false]
        by_cases hmm : m' = m
        · subst hmm
          exact mem_register_all_models_of_mem rest _ _
            (List.mem_append_right _ (List.mem_singleton.mpr rfl))
        · apply ih (reg ++ [(m', create_model_admin m')]) m hmem hexcl habs
          rw [is_model_registered, List.any_append]
          rw [is_model_registered] at hreg
          rw [hreg]
          simp [hmm]

/-- Claim C8: after register_all_models runs over the installed models and
the registry of hand registrations, (a) every concrete model of a
non-excluded app is registered; (b) every such model that was not already
registered by hand is registered with exactly the admin class
create_model_admin generates, whose list_display, search_fields and
list_filter come from the field-introspection helpers; (c) for models of
excluded apps the registry is untouched: their entries are exactly the
pre-existing ones, so no such model is auto-registered. -/
theorem register_all_models_correct (models : List ModelMeta) (reg : AdminRegistry) :
    (∀ m ∈ models, m.app_name ∉ EXCLUDED_APPS → m.abstract = false →
        is_model_registered (register_all_models models reg).1 m = true) ∧
    (∀ m ∈ models, m.app_name ∉ EXCLUDED_APPS → m.abstract = false →
        is_model_registered reg m = false →
        (m, create_model_admin m) ∈ (register_all_models models reg).1) ∧
    (∀ (m : ModelMeta) (a : AdminClass), m.app_name ∈ EXCLUDED_APPS →
        ((m, a) ∈ (register_all_models models reg).1 ↔ (m, a) ∈ reg)) := by
  refine ⟨fun m hm h1 h2 => register_all_models_registers models reg m hm h1 h2,
    fun m hm h1 h2 h3 => register_all_models_auto_admin models reg m hm h1 h2 h3,
    fun m a hex => ?_⟩
  rcases register_all_models_delta models reg with ⟨Δ, heq, hmem⟩
  rw [heq]
  constructor
  · intro h
    rcases List.mem_append.mp h with h | h
    · exact h
    · exact absurd hex (hmem _ h).2.1
  · exact List.mem_append_left _

/-- Concrete CharField-like field for the C8 witness. -/
def demoField : FieldMeta :=
  { name := "name", concrete := true, primary_key := false, auto_created := false,
    is_char := true, is_text := false, has_choices := false, is_bool := false,
    is_date := false, is_fk := false }

/-- Concrete installed model of a non-excluded app for the C8 witness. -/
def demoModel : ModelMeta :=
  { name := "Guild", app_name := "membership", abstract := false, fields := [demoField] }

/-- Witness for C8 at a concrete run: one installed model, empty registry. -/
theorem register_all_models_correct_check :
    (∀ m ∈ [demoModel], m.app_name ∉ EXCLUDED_APPS → m.abstract = false →
        is_model_registered (register_all_models [demoModel] []).1 m = true) ∧
    (∀ m ∈ [demoModel], m.app_name ∉ EXCLUDED_APPS → m.abstract = false →
        is_model_registered ([] : AdminRegistry) m = false →
        (m, create_model_admin m) ∈ (register_all_models [demoModel] []).1) ∧
    (∀ (m : ModelMeta) (a : AdminClass), m.app_name ∈ EXCLUDED_APPS →
        ((m, a) ∈ (register_all_models [demoModel] []).1 ↔ (m, a) ∈ ([] : AdminRegistry))) :=
  register_all_models_correct [demoModel] []

/-! ## membership/models.py versus migration 0002 (claim C5) -/

/-- Column names of the Lease model as membership/models.py lines 279-303
declares them, in order: a fixed `member` foreign key and no generic-relation
columns. -/
def lease_model_fields : List String :=
  ["member", "space", "lease_type", "base_price", "monthly_rent", "start_date",
   "end_date", "committed_until", "deposit_required", "deposit_paid_date",
   "deposit_paid_amount", "notes", "created_at"]

/-- Schema operation of a Django migration, restricted to the kinds that
migration 0002 applies to the lease model. -/
inductive MigrationOp where
  | removeField (model fieldName : String)
  | addField (model fieldName : String)
  deriving DecidableEq, Repr

/-- Lines 117-158 of
membership/migrations/0002_schema_updates_for_csv_import.py, the operations
touching the lease model: the member FK is removed and the generic-relation
columns content_type and object_id are added (together with discount_reason,
is_split and prepaid_through). -/
def migration0002_lease_ops : List MigrationOp :=
  [MigrationOp.removeField "lease" "member",
   MigrationOp.addField "lease" "content_type",
   MigrationOp.addField "lease" "object_id",
   MigrationOp.addField "lease" "discount_reason",
   MigrationOp.addField "lease" "is_split",
   MigrationOp.addField "lease" "prepaid_through"]

/-- Application of one migration operation to the column list of the lease
table. -/
def apply_op (fields : List String) : MigrationOp → List String
  | MigrationOp.removeField model f =>
    if model = "lease" then fields.filter (fun n => n ≠ f) else fields
  | MigrationOp.addField model f =>
    if model = "lease" then fields ++ [f] else fields

/-- Sequential application of migration operations. -/
def apply_ops (fields : List String) (ops : List MigrationOp) : List String :=
  ops.foldl apply_op fields

/-- Claim C5 (the schema the repository intends versus the model file):
whatever the prior state, after migration 0002 the lease table has the
generic-relation columns content_type and object_id and no member column;
membership/models.py nevertheless declares the fixed member foreign key and
neither generic column.  The model file contradicts the migration — and the
admin (ct_field, tenant_display), the test factories and the fixture
generator, which all address the lease tenant through content_type and
object_id. -/
theorem lease_model_contradicts_migration :
    ("member" ∈ lease_model_fields ∧ "content_type" ∉ lease_model_fields ∧
      "object_id" ∉ lease_model_fields) ∧
    ∀ fields : List String,
      "member" ∉ apply_ops fields migration0002_lease_ops ∧
        "content_type" ∈ apply_ops fields migration0002_lease_ops ∧
        "object_id" ∈ apply_ops fields migration0002_lease_ops := by
  refine ⟨by decide, fun fields => ?_⟩
  have hform : apply_ops fields migration0002_lease_ops =
      fields.filter (fun n => n ≠ "member") ++ ["content_type"] ++ ["object_id"] ++
        ["discount_reason"] ++ ["is_split"] ++ ["prepaid_through"] := by
    simp [apply_ops, migration0002_lease_ops, apply_op]
  rw [hform]
  refine ⟨?_, ?_, ?_⟩
  · intro h
    simp only [List.mem_append, List.mem_filter, List.mem_singleton] at h
    rcases h with ((((⟨_, hbad⟩ | h) | h) | h) | h) | h <;> simp_all
  · simp [List.mem_append]
  · simp [List.mem_append]

/-! ## scripts/generate_fixture.py — clean_member_name (claim C10) -/

/-- Characters Python treats as whitespace in `str.strip()` and in the regex
class backslash-s, restricted to ASCII (the CSV data is ASCII). -/
def py_is_space (c : Char) : Bool :=
  c = ' ' || c = '\t' || c = '\n' || c = '\r' || c = '\x0b' || c = '\x0c'

/-- Python `str.strip()`: drop leading and trailing whitespace. -/
def py_strip (s : List Char) : List Char :=
  ((s.dropWhile py_is_space).reverse.dropWhile py_is_space).reverse

/-- Line 290 of generate_fixture.py, the substitution removing the Airtable
suffix: whitespace, dash, whitespace, digits, at end of string (the name is
already stripped, so the dollar anchor is plain end-of-string).  Working on
the reversed character list: the digits of the match are exactly the maximal
digit run at the end, the whitespace runs are maximal (a shorter run would
put a digit or whitespace where the regex requires a dash), and the leftmost
match start makes the leading whitespace run maximal; no match leaves the
string unchanged. -/
def strip_dash_number_suffix (s : List Char) : List Char :=
  match s.reverse.dropWhile Char.isDigit, s.reverse.takeWhile Char.isDigit with
  | r1, _ :: _ =>
    match r1.dropWhile py_is_space, r1.takeWhile py_is_space with
    | '-' :: r3, _ :: _ =>
      if (r3.takeWhile py_is_space).isEmpty then s
      else (r3.dropWhile py_is_space).reverse
    | _, _ => s
  | _, _ => s

/-- Line 291 of generate_fixture.py, the substitution removing a trailing
dash: whitespace then a dash at end of string; no match leaves the string
unchanged. -/
def strip_trailing_dash (s : List Char) : List Char :=
  match s.reverse with
  | '-' :: r1 =>
    if (r1.takeWhile py_is_space).isEmpty then s
    else (r1.dropWhile py_is_space).reverse
  | _ => s

/-- Lines 67-70 of generate_fixture.py, `MEMBER_NAME_ALIASES` (the second
pair contains a literal apostrophe, written here as an escape). -/
def MEMBER_NAME_ALIASES : List (String × String) :=
  [("Ochen", "Ochen Kaylan"), ("Ha\x27Ne", "Ha\x27ne")]

/-- Lines 292-293 of generate_fixture.py: replace the name by its alias when
it is an alias key. -/
def alias_lookup (s : String) : Option String :=
  (MEMBER_NAME_ALIASES.find? (fun p => p.1 == s)).map Prod.snd

/-- Lines 289-291 of generate_fixture.py: strip, then the two regex
substitutions, in order. -/
def strip_passes (raw : String) : String :=
  String.mk (strip_trailing_dash (strip_dash_number_suffix (py_strip raw.toList)))

/-- Lines 287-294 of generate_fixture.py, `clean_member_name`. -/
def clean_member_name (raw : String) : String :=
  match alias_lookup (strip_passes raw) with
  | some v => v
  | none => strip_passes raw

/-- Claim C10 counterexample: a name carrying two Airtable suffixes loses
only the last one per application, so cleaning twice differs from cleaning
once. -/
theorem clean_member_name_not_idempotent :
    clean_member_name "Zz - 1 - 2" = "Zz - 1" ∧
      clean_member_name (clean_member_name "Zz - 1 - 2") = "Zz" ∧
      clean_member_name (clean_member_name "Zz - 1 - 2") ≠
        clean_member_name "Zz - 1 - 2" := by
  refine ⟨by decide, by decide, by decide⟩

/-- Claim C10 (amended): clean_member_name is idempotent on every input whose
cleaned value is itself fully cleaned, that is, when the strip and
substitution passes leave the cleaned value unchanged and it is not an alias
key; a name with stacked Airtable suffixes is stripped once per application,
so idempotence does not hold in general. -/
theorem clean_member_name_idempotent_of_clean (s : String)
    (h1 : strip_passes (clean_member_name s) = clean_member_name s)
    (h2 : alias_lookup (clean_member_name s) = none) :
    clean_member_name (clean_member_name s) = clean_member_name s := by
  conv_lhs => rw [clean_member_name.eq_def]
  rw [h1, h2]

/-- Witness for C10 at a concrete input: one Airtable suffix is removed and
the result is a fixed point. -/
theorem clean_member_name_idempotent_of_clean_check :
    clean_member_name (clean_member_name "Zz - 1") = clean_member_name "Zz - 1" :=
  clean_member_name_idempotent_of_clean "Zz - 1" (by decide) (by decide)

end Newplos
